import Mathlib

/-!
Verification of the sjcl-deno core: the packed bit-array representations, the
text/hex/base32 codecs, and the streaming SHA-1 engine.

The repository carries two bit-array encodings.  The word-packed one
(src/unnamed/part_001) stores 32-bit words in a Uint32Array and tags the last
word's significant-bit count by adding count * 2^40 to its value; the
boolean-sequence one (src/src/bitArray.ts) represents each bit as one array
element, and the SHA-1 engine and the codecs import that sibling file.

JavaScript numbers are modelled as Nat.  Every 32-bit bitwise context
(&, |, ^, ~, <<, >>>, and Uint32Array storage) reduces its operands to their
unsigned residue modulo 2^32; a signed int32 result is carried as that same
residue, which is faithful everywhere the source consumes such a value (all
later uses are bitwise contexts, additions followed by |0, a zero test, or
getPartial, none of which distinguish the sign representative).
-/

/-- Value of a JavaScript number in any 32-bit bitwise context, and what a
Uint32Array slot stores: the unsigned residue modulo 2^32. -/
def u32 (x : Nat) : Nat := x % 4294967296

/-- JavaScript x << n: shift count taken modulo 32, result reduced to 32 bits
(carried as its unsigned residue). -/
def jsShl (x n : Nat) : Nat := u32 (u32 x <<< (n % 32))

/-- JavaScript x >>> n for a nonnegative x: ToUint32 then logical shift, with
the shift count taken modulo 32. -/
def jsShr (x n : Nat) : Nat := u32 x >>> (n % 32)

/-- JavaScript x & y as an unsigned residue. -/
def and32 (a b : Nat) : Nat := u32 a &&& u32 b

/-- JavaScript x | y as an unsigned residue. -/
def or32 (a b : Nat) : Nat := u32 a ||| u32 b

/-- JavaScript x ^ y as an unsigned residue. -/
def xor32 (a b : Nat) : Nat := u32 a ^^^ u32 b

/-- JavaScript ~x as an unsigned residue. -/
def not32 (a : Nat) : Nat := u32 a ^^^ 4294967295

/-- JavaScript 0x80000000 >> k: an arithmetic shift of the int32 -2^31, whose
unsigned pattern is the mask of the top (k % 32) + 1 bits. -/
def sarTop (k : Nat) : Nat := 4294967296 - 2 ^ (31 - k % 32)

/-- Embeds partial(len, x, _end) (identical in both bit-array files; renamed,
since its source name is unavailable here): for len = 32 the word is returned
untagged, otherwise JS computes (_end ? x|0 : x << (32-len)) + len * 2^40.
The int32 subterm is carried as its unsigned residue, which preserves both the
stored Uint32Array value and the Math.round-decoded count. -/
def mkPartial (len x : Nat) (e : Bool) : Nat :=
  if len = 32 then x
  else (if e then u32 x else jsShl x (32 - len)) + len * 1099511627776

/-- Embeds getPartial(x) = Math.round(x / 0x10000000000) || 32 for a
nonnegative x: Math.round q = floor (q + 1/2), and 0 falls back to 32. -/
def getPartial (x : Nat) : Nat :=
  let r := (x + 549755813888) / 1099511627776
  if r = 0 then 32 else r

namespace BitArrayW

/-- Embeds bitLength from the word-packed bit array (src/unnamed/part_001). -/
def bitLength (a : List Nat) : Nat :=
  if a.length = 0 then 0 else (a.length - 1) * 32 + getPartial (a.getLastD 0)

/-- Embeds the private _shiftRight(a, shift, carry, out) of the word-packed
file.  The shift >= 32 loop pushes the carry and then zero words; when the
remaining shift is 0 the source returns concat(out, a), and since out is a
Uint32Array its trailing word always decodes as full, so that call is the
structural append taken here (lemma concat_stored_append checks the
agreement); otherwise the sub-word loop carries bits between adjacent words
and the last push re-tags the merged tail.  The source's untaken branch
(shift + shift2 <= 32) reads the last produced word without removing it; its
out.pop() copy is modelled by getLastD 0 (on the empty list the source's
assert would fire, but the branch is unreachable from concat). -/
def _shiftRight (a : List Nat) (shift carry : Nat) (out : List Nat) : List Nat :=
  let out1 := if 32 ≤ shift then out ++ u32 carry :: List.replicate (shift / 32 - 1) 0 else out
  let carry1 := if 32 ≤ shift then 0 else carry
  let sh := shift % 32
  if sh = 0 then out1 ++ a
  else
    let p := a.foldl
      (fun (p : List Nat × Nat) x => (p.1 ++ [or32 p.2 (jsShr x sh)], jsShl x (32 - sh)))
      (out1, carry1)
    let shift2 := getPartial (a.getLastD 0)
    if 32 < sh + shift2 then
      p.1 ++ [u32 (mkPartial ((sh + shift2) % 32) p.2 true)]
    else
      p.1 ++ [u32 (mkPartial ((sh + shift2) % 32) (p.1.getLastD 0) true)]

/-- Embeds concat(a1, a2) of the word-packed bit array (part_001 lines
134-145): empty operands append structurally; otherwise the last word's
decoded count selects either the structural append (count 32) or the
shift-and-merge path. -/
def concat (a1 a2 : List Nat) : List Nat :=
  if a1.length = 0 ∨ a2.length = 0 then a1 ++ a2
  else
    let shift := getPartial (a1.getLastD 0)
    if shift = 32 then a1 ++ a2
    else _shiftRight a2 shift (u32 (a1.getLastD 0)) a1.dropLast

/-- Embeds clamp(a, len) of the word-packed bit array (part_001 lines
165-174): a no-op when 32 * a.length < len, else the word-aligned slice with
the new last word masked to its top len % 32 bits and re-tagged (the tag is
then erased by the Uint32Array store, modelled by u32). -/
def clamp (a : List Nat) (len : Nat) : List Nat :=
  if a.length * 32 < len then a
  else
    let a1 := a.take ((len + 31) / 32)
    let len1 := len % 32
    if 0 < a1.length ∧ len1 ≠ 0 then
      a1.dropLast ++ [u32 (mkPartial len1 (and32 (a1.getLastD 0) (sarTop (len1 - 1))) true)]
    else a1

/-- Embeds equal(a, b) of the word-packed bit array (part_001 lines 203-212):
compare bitLength first, then OR every pairwise XOR into an accumulator with
no early exit (an out-of-range b[i] reads as undefined, i.e. 0 in the XOR). -/
def equal (a b : List Nat) : Bool :=
  if bitLength a ≠ bitLength b then false
  else
    ((List.range a.length).foldl (fun x i => or32 x (xor32 (a.getD i 0) (b.getD i 0))) 0) == 0

end BitArrayW

namespace BitArrayB

/-- Embeds concat of the boolean-sequence bit array (src/src/bitArray.ts lines
72-74): a plain spread append. -/
def concat (a1 a2 : List α) : List α := a1 ++ a2

/-- Embeds bitLength of the boolean-sequence bit array (src/src/bitArray.ts
lines 81-83): the array length. -/
def bitLength (a : List α) : Nat := a.length

/-- The boolean-variant clamp as it executes when handed a numeric word array,
which is what codecHex.toBits does through its ./bitArray.ts import: the
guard and slicing match the word version, but the masked value collapses the
last word through a[l-1]?1:0, and the stored !!partial(...) boolean coerces
to 1 in the Uint32Array (the partial value is nonzero whenever len1 is). -/
def clampW (a : List Nat) (len : Nat) : List Nat :=
  if a.length * 32 < len then a
  else
    let a1 := a.take ((len + 31) / 32)
    let len1 := len % 32
    if 0 < a1.length ∧ len1 ≠ 0 then
      a1.dropLast ++
        [if mkPartial len1 (and32 (if a1.getLastD 0 ≠ 0 then 1 else 0) (sarTop (len1 - 1))) true ≠ 0
          then 1 else 0]
    else a1

end BitArrayB

namespace CodecString

/-- Embeds codecString.toBits.  Its first line rewrites the input string into
its UTF-8 byte sequence (unescape of encodeURIComponent); the model takes that
byte sequence directly.  Bytes pack big-endian four to a word, a trailing
group of 1-3 bytes becomes a partial word, and Uint32Array.from stores every
element reduced (map u32). -/
def toBits (bytes : List Nat) : List Nat :=
  let p := bytes.foldl
    (fun (p : List Nat × Nat × Nat) ch =>
      let tmp := or32 (jsShl p.2.1 8) ch
      if p.2.2 % 4 = 3 then (p.1 ++ [tmp], 0, p.2.2 + 1) else (p.1, tmp, p.2.2 + 1))
    ([], 0, 0)
  let out := if p.2.2 % 4 ≠ 0 then p.1 ++ [mkPartial (8 * (p.2.2 % 4)) p.2.1 false] else p.1
  out.map u32

end CodecString

namespace CodecHex

/-- Hex digit value, case-insensitive. -/
def hexVal? (c : Char) : Option Nat :=
  if '0' ≤ c ∧ c ≤ '9' then some (c.toNat - 48)
  else if 'a' ≤ c ∧ c ≤ 'f' then some (c.toNat - 87)
  else if 'A' ≤ c ∧ c ≤ 'F' then some (c.toNat - 70)
  else none

/-- Models str.replace(/\s|0x/g, ""): scanning left to right, a whitespace
character or the two-character sequence 0x is removed, everything else kept. -/
def stripJunk : List Char → List Char
  | [] => []
  | c :: r =>
    if c.isWhitespace then stripJunk r
    else if c = '0' ∧ r.head? = some 'x' then stripJunk r.tail
    else c :: stripJunk r
termination_by l => l.length
decreasing_by
  all_goals simp only [List.length_cons]
  · omega
  · cases r
    · simp
    · simp; omega
  · omega

/-- Models parseInt(s, 16) followed by ^ 0: an optional sign, an optional
0x/0X prefix, then the longest hex-digit prefix; no digit yields NaN and
NaN ^ 0 is 0; the ToInt32 of the parsed value is carried as its unsigned
residue. -/
def parseIntHexU32 (s : List Char) : Nat :=
  let q : Bool × List Char :=
    match s with
    | '-' :: r => (true, r)
    | '+' :: r => (false, r)
    | _ => (false, s)
  let s2 : List Char :=
    match q.2 with
    | '0' :: 'x' :: r => r
    | '0' :: 'X' :: r => r
    | _ => q.2
  let ds := (s2.takeWhile (fun c => (hexVal? c).isSome)).map (fun c => (hexVal? c).getD 0)
  let v := ds.foldl (fun a d => 16 * a + d) 0
  if ds.isEmpty then 0
  else if q.1 then (4294967296 - v % 4294967296) % 4294967296
  else u32 v

/-- Embeds codecHex.toBits: strip whitespace and 0x, pad with eight zeros,
parse 8-character groups (the loop visits ceil(length/8) groups), and clamp
to 4 * original length bits with the boolean-variant clamp the codec's
./bitArray.ts import resolves to. -/
def toBits (s : List Char) : List Nat :=
  let str := stripJunk s
  let len := str.length
  let str2 := str ++ List.replicate 8 '0'
  let out := (List.range ((str2.length + 7) / 8)).map
    (fun k => parseIntHexU32 ((str2.drop (8 * k)).take 8))
  BitArrayB.clampW (out.map u32) (len * 4)

end CodecHex

namespace CodecBase32

/-- The base32 alphabet. -/
def chars : List Char := "ABCDEFGHIJKLMNOPQRSTUVWXYZ234567".toList

/-- The base32hex alphabet. -/
def hexChars : List Char := "0123456789ABCDEFGHIJKLMNOPQRSTUV".toList

/-- The encoder loop of codecBase32.fromBits, one recursive step per output
character; an out-of-range arr[i] reads as undefined, i.e. 0 in the shifts. -/
def emit (arr : List Nat) (c : List Char) : Nat → Nat → Nat → Nat → List Char
  | _, _, _, 0 => []
  | i, bits, ta, n + 1 =>
    let ch := c.getD (jsShr (xor32 ta (jsShr (arr.getD i 0) bits)) 27) 'A'
    if bits < 5 then ch :: emit arr c (i + 1) (bits + 27) (jsShl (arr.getD i 0) (5 - bits)) n
    else ch :: emit arr c i (bits - 5) (jsShl ta 5) n

/-- Embeds codecBase32.fromBits(arr, _noEquals, _hex).  bitArray.bitLength
resolves through ./bitArray.ts to the boolean-variant bitLength, the array
length.  The while loop runs while out.length * 5 < bl, producing one
character per iteration, hence exactly ceil(bl/5) characters; the final loop
pads with = to a multiple of 8 unless suppressed. -/
def fromBits (arr : List Nat) (noEquals hex : Bool) : String :=
  let c := if hex then hexChars else chars
  let bl := BitArrayB.bitLength arr
  let out := emit arr c 0 0 0 ((bl + 4) / 5)
  let out2 := if noEquals then out else out ++ List.replicate ((8 - out.length % 8) % 8) '='
  String.mk out2

end CodecBase32

namespace SHA1

/-- The SHA-1 initialization vector _init. -/
def _init : List Nat := [0x67452301, 0xEFCDAB89, 0x98BADCFE, 0x10325476, 0xC3D2E1F0]

/-- The SHA-1 round-constant table _key. -/
def _key : List Nat := [0x5A827999, 0x6ED9EBA1, 0x8F1BBCDC, 0xCA62C1D6]

/-- Embeds the private _f(t, b, c, d): the round function selected by range,
with a Bug thrown past index 79. -/
def _f (t b c d : Nat) : Except String Nat :=
  if t ≤ 19 then .ok (or32 (and32 b c) (and32 (not32 b) d))
  else if t ≤ 39 then .ok (xor32 (xor32 b c) d)
  else if t ≤ 59 then .ok (or32 (or32 (and32 b c) (and32 b d)) (and32 c d))
  else if t ≤ 79 then .ok (xor32 (xor32 b c) d)
  else .error "BUG: Unreachable state"

/-- Embeds the private _S(n, x) = (x << n) | (x >>> 32-n). -/
def _S (n x : Nat) : Nat := or32 (jsShl x n) (jsShr x (32 - n))

/-- The five working variables of one compression pass. -/
structure RoundState where
  a : Nat
  b : Nat
  c : Nat
  d : Nat
  e : Nat

/-- One round t of _block as it runs on a plain JavaScript array (the
finalize path): for t >= 16 the schedule store w[t] = _S(1, w[t-3] ^ w[t-8]
^ w[t-14] ^ w[t-16]) grows the array and the grown entry is read back into
tmp; then the working variables rotate. -/
def roundA (t : Nat) (p : RoundState × List Nat) : Except String (RoundState × List Nat) := do
  let st := p.1
  let w := if 16 ≤ t then
      p.2 ++ [_S 1 (xor32 (xor32 (xor32 (p.2.getD (t - 3) 0) (p.2.getD (t - 8) 0))
        (p.2.getD (t - 14) 0)) (p.2.getD (t - 16) 0))]
    else p.2
  let ft ← _f t st.b st.c st.d
  let tmp := u32 (_S 5 st.a + ft + st.e + w.getD t 0 + _key.getD (t / 20) 0)
  return (⟨tmp, st.a, _S 30 st.b, st.c, st.d⟩, w)

/-- One round t of _block as it runs on a Uint32Array subarray of 16 words
(the update path): the out-of-bounds schedule store for t >= 16 is silently
dropped by the typed array, the subsequent w[t] read yields undefined, and
(... + undefined + ...) | 0 evaluates to 0, so tmp is 0 for every such
round; _f is still evaluated first, as in the source expression. -/
def roundU (t : Nat) (w : List Nat) (st : RoundState) : Except String RoundState := do
  let ft ← _f t st.b st.c st.d
  let tmp := if 16 ≤ t then 0
    else u32 (_S 5 st.a + ft + st.e + w.getD t 0 + _key.getD (t / 20) 0)
  return ⟨tmp, st.a, _S 30 st.b, st.c, st.d⟩

/-- Embeds _block(words) for a plain-array argument; callers hand it exactly
16 words.  The digest words update by wraparound addition at the end. -/
def _blockA (words h : List Nat) : Except String (List Nat) := do
  let st0 : RoundState := ⟨h.getD 0 0, h.getD 1 0, h.getD 2 0, h.getD 3 0, h.getD 4 0⟩
  let p ← (List.range 80).foldlM (fun p t => roundA t p) (st0, words)
  return [u32 (h.getD 0 0 + p.1.a), u32 (h.getD 1 0 + p.1.b), u32 (h.getD 2 0 + p.1.c),
    u32 (h.getD 3 0 + p.1.d), u32 (h.getD 4 0 + p.1.e)]

/-- Embeds _block(words) for a Uint32Array subarray argument; callers hand it
exactly 16 words. -/
def _blockU (words h : List Nat) : Except String (List Nat) := do
  let st0 : RoundState := ⟨h.getD 0 0, h.getD 1 0, h.getD 2 0, h.getD 3 0, h.getD 4 0⟩
  let st ← (List.range 80).foldlM (fun st t => roundU t words st) st0
  return [u32 (h.getD 0 0 + st.a), u32 (h.getD 1 0 + st.b), u32 (h.getD 2 0 + st.c),
    u32 (h.getD 3 0 + st.d), u32 (h.getD 4 0 + st.e)]

/-- The engine state: digest accumulator _h, unconsumed buffer, running
total _length. -/
structure Engine where
  h : List Nat
  buffer : List Nat
  length : Nat

/-- The state reset() produces, and the constructor's initial state. -/
def fresh : Engine := ⟨_init, [], 0⟩

/-- JavaScript o ? 1 : 0. -/
def t01 (o : Nat) : Nat := if o = 0 then 0 else 1

/-- Iteration count of update's block loop, for (i = 512+ol - ((512+ol) &
511); i <= nl; i += 512): the values i takes are the multiples of 512 in
(ol, nl], counted here directly from the loop bounds ((512+ol) & 511 is
(512+ol) % 512 on the low bits ToInt32 preserves). -/
def jcount (ol nl : Nat) : Nat :=
  let start := 512 + ol - (512 + ol) % 512
  if start ≤ nl then (nl - start) / 512 + 1 else 0

/-- Block phase of update: iteration k of the loop feeds c.subarray(16k,
16(k+1)) to _block. -/
def updateBlocks (c : List Nat) (j : Nat) (h : List Nat) : Except String (List Nat) :=
  (List.range j).foldlM (fun hh k => _blockU ((c.drop (16 * k)).take 16) hh) h

/-- Embeds update(data).  data stands uniformly for a boolean[] bit array
(encoded 0/1) or the word array a string argument converts to: the source
builds bitArray.concat(this._buffer.map(o => !!o), data).map(o => o ? 1 : 0),
a spread append followed by an elementwise truthiness collapse, written here
pushed through the append.  The length check throws Invalid after the
assignments; the thrown case discards the mutated state, which no caller
observes.  The Uint32Array branch is the one taken (Uint32Array exists):
c = new Uint32Array(b) stores every element reduced, the loop runs
jcount ol nl times, and splice(0, 16j) drops the consumed words. -/
def update (st : Engine) (data : List Nat) : Except String Engine :=
  let b := st.buffer.map t01 ++ data.map t01
  let nl := st.length + BitArrayB.bitLength data
  if 9007199254740991 < nl then .error "Cannot hash more than 2^53 - 1 bits"
  else do
    let j := jcount st.length nl
    let h ← updateBlocks (b.map u32) j st.h
    return ⟨h, b.drop (16 * j), nl⟩

/-- The finalize block loop, while (b.length) _block(b.splice(0, 16)),
structurally recursive on a fuel that starts at b.length: every iteration
removes at least one word while spending one fuel, so the fuel never runs
out before the list does (the fuel-exhausted case is unreachable). -/
def foldBlocksAGo : Nat → List Nat → List Nat → Except String (List Nat)
  | _, [], h => .ok h
  | 0, _ :: _, h => .ok h
  | fuel + 1, x :: xs, h => do
    let h2 ← _blockA ((x :: xs).take 16) h
    foldBlocksAGo fuel ((x :: xs).drop 16) h2

/-- The finalize block loop: while (b.length) _block(b.splice(0, 16)). -/
def foldBlocksA (b h : List Nat) : Except String (List Nat) :=
  foldBlocksAGo b.length b h

/-- Embeds finalize() up to (and including) the block loop: append
partial(1, 1), pad with zeros until the length is 14 mod 16, append the two
length words (high then low, the low one as its int32 residue), and compress
every 16-word block; the folded digest words are returned. -/
def finalizeWords (st : Engine) : Except String (List Nat) :=
  let b := st.buffer ++ [mkPartial 1 1 false]
  let b2 := b ++ List.replicate ((16 - (b.length + 2) % 16) % 16) 0
  let b3 := b2 ++ [st.length / 4294967296, u32 st.length]
  foldBlocksA b3 st.h

/-- Embeds finalize(): the source's last line returns h.map(o => !!o), an
array of five booleans; the engine is then reset (a side effect no claim
consults). -/
def finalize (st : Engine) : Except String (List Bool) :=
  Except.map (fun h => h.map (fun o => o != 0)) (finalizeWords st)

/-- Encoding of a boolean[] element as the number its truthiness gives. -/
def b01 (x : Bool) : Nat := if x then 1 else 0

/-- Embeds the static hash(data) for a boolean[] argument: fresh engine,
update, finalize. -/
def hashBits (data : List Bool) : Except String (List Bool) :=
  update fresh (data.map b01) >>= finalize

/-- Embeds the static hash(data) for a string argument, given as its UTF-8
byte sequence: update first converts it with codec.utf8String.toBits. -/
def hashStr (bytes : List Nat) : Except String (List Bool) :=
  update fresh (CodecString.toBits bytes) >>= finalize

end SHA1

/-- A list is Stored when every element fits a Uint32Array slot; this is the
type-level invariant of every value of type Uint32Array in the source. -/
def Stored (a : List Nat) : Prop := ∀ x ∈ a, x < 4294967296

instance (a : List Nat) : Decidable (Stored a) := by
  unfold Stored
  infer_instance

lemma stored_append {a b : List Nat} (ha : Stored a) (hb : Stored b) : Stored (a ++ b) := by
  intro x hx
  rcases List.mem_append.1 hx with h | h
  · exact ha x h
  · exact hb x h

lemma stored_take {a : List Nat} (ha : Stored a) (n : Nat) : Stored (a.take n) :=
  fun x hx => ha x (List.mem_of_mem_take hx)

lemma stored_dropLast {a : List Nat} (ha : Stored a) : Stored a.dropLast :=
  fun x hx => ha x (List.dropLast_subset a hx)

lemma u32_lt (x : Nat) : u32 x < 4294967296 := Nat.mod_lt _ (by norm_num)

/-- A stored word decodes as a full word: its tag slot reads zero and the
fallback 32 applies. -/
lemma getPartial_stored {x : Nat} (hx : x < 4294967296) : getPartial x = 32 := by
  unfold getPartial
  have h : (x + 549755813888) / 1099511627776 = 0 := Nat.div_eq_of_lt (by omega)
  simp [h]

lemma getLastD_mem_of_ne_nil {a : List Nat} (h : a ≠ []) : a.getLastD 0 ∈ a := by
  cases a with
  | nil => exact absurd rfl h
  | cons x xs =>
    rw [List.getLastD_cons]
    exact List.getLastD_mem_cons xs x

/-- On stored arrays bitLength is 32 words times the length. -/
lemma bitLength_stored {a : List Nat} (ha : Stored a) :
    BitArrayW.bitLength a = 32 * a.length := by
  unfold BitArrayW.bitLength
  cases a with
  | nil => simp
  | cons x xs =>
    have hmem : (x :: xs).getLastD 0 ∈ x :: xs := getLastD_mem_of_ne_nil (by simp)
    rw [if_neg (by simp)]
    rw [getPartial_stored (ha _ hmem)]
    simp [List.length_cons]
    ring

/-- On stored arrays concat always takes the structural-append branch: the
trailing word of a Uint32Array decodes as full. -/
lemma concat_stored_append {a b : List Nat} (ha : Stored a) :
    BitArrayW.concat a b = a ++ b := by
  unfold BitArrayW.concat
  by_cases h0 : a.length = 0 ∨ b.length = 0
  · rw [if_pos h0]
  · rw [if_neg h0]
    push_neg at h0
    have hne : a ≠ [] := by
      intro h; exact h0.1 (by simp [h])
    rw [getPartial_stored (ha _ (getLastD_mem_of_ne_nil hne))]
    simp

lemma stored_concat {a b : List Nat} (ha : Stored a) (hb : Stored b) :
    Stored (BitArrayW.concat a b) := by
  rw [concat_stored_append ha]
  exact stored_append ha hb

lemma stored_clamp {a : List Nat} (ha : Stored a) (len : Nat) :
    Stored (BitArrayW.clamp a len) := by
  unfold BitArrayW.clamp
  split
  · exact ha
  · dsimp only
    split
    · intro x hx
      rcases List.mem_append.1 hx with h | h
      · exact stored_dropLast (stored_take ha _) x h
      · rcases List.mem_singleton.1 h with rfl
        exact u32_lt _
    · exact stored_take ha _

/-- C3.  For every pair of bit arrays a and b, bitLength of their
concatenation is the sum of their bitLengths.  First conjunct: the
word-packed implementation (src/unnamed/part_001), quantified over all
Uint32Array values, i.e. all lists of words below 2^32 (the hypothesis is the
type invariant of Uint32Array, within which arrays with a partial trailing
word do not exist, since storage strips the tag); second conjunct: the
boolean-sequence implementation (src/src/bitArray.ts), where concatenation is
a plain append and bitLength the length. -/
theorem C3_concat_length_additive :
    (∀ a b : List Nat, Stored a → Stored b →
      BitArrayW.bitLength (BitArrayW.concat a b) =
        BitArrayW.bitLength a + BitArrayW.bitLength b) ∧
    (∀ a b : List Bool,
      BitArrayB.bitLength (BitArrayB.concat a b) =
        BitArrayB.bitLength a + BitArrayB.bitLength b) := by
  constructor
  · intro a b ha hb
    rw [bitLength_stored (stored_concat ha hb), bitLength_stored ha, bitLength_stored hb,
      concat_stored_append ha]
    simp [Nat.mul_add]
  · intro a b
    simp [BitArrayB.bitLength, BitArrayB.concat]

/-- Witness for C3 at concrete stored arrays. -/
theorem C3_concat_length_additive_witness :
    BitArrayW.bitLength (BitArrayW.concat [5] [7, 9]) =
      BitArrayW.bitLength [5] + BitArrayW.bitLength [7, 9] :=
  C3_concat_length_additive.1 [5] [7, 9] (by decide) (by decide)

/-- C4.  clamp(a, bitLength(a)) = a on every Uint32Array a, and clamp(a, len)
returns a unchanged whenever a is shorter than len bits; both for the
word-packed implementation the claim cites (the Stored hypothesis is the
Uint32Array element bound). -/
theorem C4_clamp_identity :
    (∀ a : List Nat, Stored a → BitArrayW.clamp a (BitArrayW.bitLength a) = a) ∧
    (∀ (a : List Nat) (len : Nat), Stored a → BitArrayW.bitLength a < len →
      BitArrayW.clamp a len = a) := by
  constructor
  · intro a ha
    rw [bitLength_stored ha]
    unfold BitArrayW.clamp
    rw [if_neg (by omega)]
    dsimp only
    have h1 : (32 * a.length + 31) / 32 = a.length := by omega
    have h2 : 32 * a.length % 32 = 0 := by omega
    rw [h1, h2, if_neg (by simp), List.take_length]
  · intro a len ha hlen
    rw [bitLength_stored ha] at hlen
    unfold BitArrayW.clamp
    rw [if_pos (by omega)]

/-- Witness for C4 at a concrete stored array. -/
theorem C4_clamp_identity_witness :
    BitArrayW.clamp [5, 9] (BitArrayW.bitLength [5, 9]) = [5, 9] ∧
    BitArrayW.clamp [5] 40 = [5] :=
  ⟨C4_clamp_identity.1 [5, 9] (by decide),
   C4_clamp_identity.2 [5] 40 (by decide) (by decide)⟩

lemma equal_fold_self (a : List Nat) (l : List Nat) :
    l.foldl (fun x i => or32 x (xor32 (a.getD i 0) (a.getD i 0))) 0 = 0 := by
  induction l with
  | nil => rfl
  | cons i is ih =>
    have h1 : xor32 (a.getD i 0) (a.getD i 0) = 0 := by simp [xor32]
    have h2 : or32 0 0 = 0 := by simp [or32, u32]
    rw [List.foldl_cons, h1, h2, ih]

/-- C5.  equal(a, b) of the word-packed bit array: false whenever the
bitLengths differ; with equal bitLengths, true exactly when the no-early-exit
accumulation of pairwise word XORs is zero; and reflexivity. -/
theorem C5_equal_constant_time :
    (∀ a b : List Nat, BitArrayW.bitLength a ≠ BitArrayW.bitLength b →
      BitArrayW.equal a b = false) ∧
    (∀ a b : List Nat, BitArrayW.bitLength a = BitArrayW.bitLength b →
      (BitArrayW.equal a b = true ↔
        (List.range a.length).foldl
          (fun x i => or32 x (xor32 (a.getD i 0) (b.getD i 0))) 0 = 0)) ∧
    (∀ a : List Nat, BitArrayW.equal a a = true) := by
  refine ⟨?_, ?_, ?_⟩
  · intro a b h
    unfold BitArrayW.equal
    rw [if_pos h]
  · intro a b h
    unfold BitArrayW.equal
    rw [if_neg (fun hne => hne h)]
    simp
  · intro a
    unfold BitArrayW.equal
    rw [if_neg (fun hne => hne rfl)]
    rw [beq_iff_eq]
    exact equal_fold_self a (List.range a.length)

/-- Witness for C5 at concrete arrays. -/
theorem C5_equal_constant_time_witness :
    BitArrayW.equal [3] [5, 7] = false ∧ BitArrayW.equal [3, 9] [3, 9] = true :=
  ⟨C5_equal_constant_time.1 [3] [5, 7] (by decide),
   C5_equal_constant_time.2.2 [3, 9]⟩

lemma stored_map_u32 (l : List Nat) : Stored (l.map u32) := by
  intro x hx
  obtain ⟨y, _, rfl⟩ := List.mem_map.1 hx
  exact u32_lt y

lemma stored_toBits (bytes : List Nat) : Stored (CodecString.toBits bytes) := by
  unfold CodecString.toBits
  dsimp only
  exact stored_map_u32 _

lemma stored_clampW {a : List Nat} (ha : Stored a) (len : Nat) :
    Stored (BitArrayB.clampW a len) := by
  unfold BitArrayB.clampW
  split
  · exact ha
  · dsimp only
    split
    · intro x hx
      rcases List.mem_append.1 hx with h | h
      · exact stored_dropLast (stored_take ha _) x h
      · rcases List.mem_singleton.1 h with rfl
        have hite : ∀ (c : Prop) (inst : Decidable c), (if c then (1 : Nat) else 0) < 4294967296 := by
          intro c inst
          split <;> norm_num
        exact hite _ _
    · exact stored_take ha _

lemma stored_hexToBits (s : List Char) : Stored (CodecHex.toBits s) := by
  unfold CodecHex.toBits
  dsimp only
  exact stored_clampW (stored_map_u32 _) _

/-- C9.  Uint32Array storage reduces every element modulo 2^32, so the
count * 2^40 tag added by partial cannot survive storage: getPartial of any
stored element (in particular of any stored partial(...) value) is 32, and
bitLength of any Uint32Array produced by clamp, concat, or the string/hex
codec toBits functions is a multiple of 32, whatever partial trailing bit
count was intended. -/
theorem C9_storage_strips_partial_tag :
    (∀ x : Nat, x < 4294967296 → getPartial x = 32) ∧
    (∀ (len x : Nat) (e : Bool), getPartial (u32 (mkPartial len x e)) = 32) ∧
    (∀ (a : List Nat) (len : Nat), Stored a →
      32 ∣ BitArrayW.bitLength (BitArrayW.clamp a len)) ∧
    (∀ a b : List Nat, Stored a → Stored b →
      32 ∣ BitArrayW.bitLength (BitArrayW.concat a b)) ∧
    (∀ bytes : List Nat, 32 ∣ BitArrayW.bitLength (CodecString.toBits bytes)) ∧
    (∀ s : List Char, 32 ∣ BitArrayW.bitLength (CodecHex.toBits s)) := by
  refine ⟨?_, ?_, ?_, ?_, ?_, ?_⟩
  · intro x hx
    exact getPartial_stored hx
  · intro len x e
    exact getPartial_stored (u32_lt _)
  · intro a len ha
    rw [bitLength_stored (stored_clamp ha len)]
    exact Dvd.intro _ rfl
  · intro a b ha hb
    rw [bitLength_stored (stored_concat ha hb)]
    exact Dvd.intro _ rfl
  · intro bytes
    rw [bitLength_stored (stored_toBits bytes)]
    exact Dvd.intro _ rfl
  · intro s
    rw [bitLength_stored (stored_hexToBits s)]
    exact Dvd.intro _ rfl

/-- Witness for C9 at concrete inputs. -/
theorem C9_storage_strips_partial_tag_witness :
    getPartial 1711276032 = 32 ∧
    32 ∣ BitArrayW.bitLength (BitArrayW.clamp [3735928559] 8) :=
  ⟨C9_storage_strips_partial_tag.1 1711276032 (by decide),
   C9_storage_strips_partial_tag.2.2.1 [3735928559] 8 (by decide)⟩

namespace SHA1

/-- Every round index the compression loop produces stays at or below 79, and
there _f answers with the range-selected formula, never the Bug throw. -/
lemma _f_range {t : Nat} (h : t ≤ 79) (b c d : Nat) :
    _f t b c d = Except.ok
      (if t ≤ 19 then or32 (and32 b c) (and32 (not32 b) d)
        else if t ≤ 39 then xor32 (xor32 b c) d
        else if t ≤ 59 then or32 (or32 (and32 b c) (and32 b d)) (and32 c d)
        else xor32 (xor32 b c) d) := by
  unfold _f
  split_ifs <;> rfl

lemma foldlM_ex_ok {α β : Type} (f : β → α → Except String β) :
    ∀ (l : List α) (b : β), (∀ b' a, a ∈ l → ∃ b'', f b' a = Except.ok b'') →
      ∃ r, List.foldlM f b l = Except.ok r := by
  intro l
  induction l with
  | nil => exact fun b _ => ⟨b, rfl⟩
  | cons x xs ih =>
    intro b h
    obtain ⟨b2, hb2⟩ := h b x (by simp)
    obtain ⟨r, hr⟩ := ih b2 (fun b' a ha => h b' a (by simp [ha]))
    refine ⟨r, ?_⟩
    rw [List.foldlM_cons, hb2]
    simpa using hr

lemma roundA_ok {t : Nat} (h : t ≤ 79) (p : RoundState × List Nat) :
    ∃ q, roundA t p = Except.ok q := by
  unfold roundA
  dsimp only
  rw [_f_range h]
  exact ⟨_, rfl⟩

lemma roundU_ok {t : Nat} (h : t ≤ 79) (w : List Nat) (st : RoundState) :
    ∃ q, roundU t w st = Except.ok q := by
  unfold roundU
  rw [_f_range h]
  exact ⟨_, rfl⟩

lemma _blockA_ok (w h : List Nat) : ∃ h2, _blockA w h = Except.ok h2 := by
  unfold _blockA
  dsimp only
  obtain ⟨r, hr⟩ := foldlM_ex_ok (fun p t => roundA t p) (List.range 80)
    (⟨⟨h.getD 0 0, h.getD 1 0, h.getD 2 0, h.getD 3 0, h.getD 4 0⟩, w⟩)
    (fun p t ht => roundA_ok (by simp at ht; omega) p)
  rw [hr]
  exact ⟨_, rfl⟩

lemma _blockU_ok (w h : List Nat) : ∃ h2, _blockU w h = Except.ok h2 := by
  unfold _blockU
  dsimp only
  obtain ⟨r, hr⟩ := foldlM_ex_ok (fun st t => roundU t w st) (List.range 80)
    (⟨h.getD 0 0, h.getD 1 0, h.getD 2 0, h.getD 3 0, h.getD 4 0⟩)
    (fun st t ht => roundU_ok (by simp at ht; omega) w st)
  rw [hr]
  exact ⟨_, rfl⟩

end SHA1

/-- C7.  For every round index the compression loop produces (t at most 79),
_f returns the range-selected value: (b AND c) OR ((NOT b) AND d) for rounds
0-19, b XOR c XOR d for 20-39 and 60-79, the majority (b AND c) OR (b AND d)
OR (c AND d) for 40-59 (all as unsigned 32-bit residues); and the terminal
Bug branch is unreachable during compression: both compression paths always
return a digest, never the Bug error. -/
theorem C7_round_function_ranges :
    (∀ t b c d : Nat, t ≤ 79 →
      SHA1._f t b c d = Except.ok
        (if t ≤ 19 then or32 (and32 b c) (and32 (not32 b) d)
          else if t ≤ 39 then xor32 (xor32 b c) d
          else if t ≤ 59 then or32 (or32 (and32 b c) (and32 b d)) (and32 c d)
          else xor32 (xor32 b c) d)) ∧
    (∀ w h : List Nat, ∃ h2, SHA1._blockA w h = Except.ok h2) ∧
    (∀ w h : List Nat, ∃ h2, SHA1._blockU w h = Except.ok h2) :=
  ⟨fun _ b c d h => SHA1._f_range h b c d, SHA1._blockA_ok, SHA1._blockU_ok⟩

namespace SHA1

lemma updateBlocks_ok (c : List Nat) (j : Nat) (h : List Nat) :
    ∃ h2, updateBlocks c j h = Except.ok h2 := by
  unfold updateBlocks
  exact foldlM_ex_ok _ (List.range j) h (fun hh k _ => _blockU_ok _ hh)

/-- The error equation of update: the Invalid throw fires exactly on length
overflow. -/
lemma update_err {st : Engine} {data : List Nat}
    (h : 9007199254740991 < st.length + data.length) :
    update st data = Except.error "Cannot hash more than 2^53 - 1 bits" := by
  unfold update
  dsimp only [BitArrayB.bitLength]
  rw [if_pos h]

lemma t01_idem (x : Nat) : t01 (t01 x) = t01 x := by
  unfold t01
  split_ifs <;> simp_all

lemma map_t01_idem (l : List Nat) : (l.map t01).map t01 = l.map t01 := by
  rw [List.map_map]
  exact List.map_congr_left (fun x _ => t01_idem x)

lemma u32_t01 (x : Nat) : u32 (t01 x) = t01 x := by
  unfold t01 u32
  split_ifs <;> rfl

lemma map_u32_map_t01 (l : List Nat) : (l.map t01).map u32 = l.map t01 := by
  rw [List.map_map]
  exact List.map_congr_left (fun x _ => u32_t01 x)

/-- The loop count is the number of multiples of 512 in (ol, nl]. -/
lemma jcount_eq (ol nl : Nat) (h : ol ≤ nl) : jcount ol nl = nl / 512 - ol / 512 := by
  unfold jcount
  dsimp only
  split <;> omega

/-- Taking one 16-word block from inside the prefix ignores the suffix. -/
lemma chunk_prefix {c1 : List Nat} (c2 : List Nat) (k : Nat) (hle : 16 * k + 16 ≤ c1.length) :
    ((c1 ++ c2).drop (16 * k)).take 16 = (c1.drop (16 * k)).take 16 := by
  rw [List.drop_append_of_le_length (by omega)]
  rw [List.take_append_of_le_length (by simp [List.length_drop]; omega)]

lemma foldlM_congr_mem {α β : Type} {f g : β → α → Except String β} :
    ∀ (l : List α), (∀ b a, a ∈ l → f b a = g b a) → ∀ b, l.foldlM f b = l.foldlM g b := by
  intro l
  induction l with
  | nil => intro _ b; rfl
  | cons x xs ih =>
    intro h b
    rw [List.foldlM_cons, List.foldlM_cons, h b x (by simp)]
    cases hg : g b x with
    | error e => rfl
    | ok b2 => exact ih (fun b a ha => h b a (by simp [ha])) b2

/-- Splitting the block loop at an intermediate count. -/
lemma updateBlocks_add (c : List Nat) (j1 j2 : Nat) (h : List Nat) :
    updateBlocks c (j1 + j2) h =
      updateBlocks c j1 h >>= fun h2 =>
        (List.range j2).foldlM (fun hh k => _blockU ((c.drop (16 * (j1 + k))).take 16) hh) h2 := by
  unfold updateBlocks
  rw [List.range_add, List.foldlM_append]
  simp only [List.foldlM_map]

/-- The block loop over the first j1 + j2 blocks of an appended buffer is the
loop over j1 blocks of the prefix followed by the loop over j2 blocks of
what remains, provided the first j1 blocks lie inside the prefix. -/
lemma updateBlocks_split (X Y : List Nat) (j1 j2 : Nat) (h : List Nat)
    (hlen : 16 * j1 ≤ X.length) :
    updateBlocks ((X ++ Y).map u32) (j1 + j2) h =
      updateBlocks (X.map u32) j1 h >>= fun h2 =>
        updateBlocks (((X ++ Y).drop (16 * j1)).map u32) j2 h2 := by
  rw [updateBlocks_add]
  have hfirst : updateBlocks ((X ++ Y).map u32) j1 h = updateBlocks (X.map u32) j1 h := by
    unfold updateBlocks
    refine foldlM_congr_mem (List.range j1) (fun b k hk => ?_) h
    have hk2 : 16 * k + 16 ≤ (X.map u32).length := by
      simp only [List.length_map]
      have := List.mem_range.1 hk
      omega
    rw [List.map_append, chunk_prefix (Y.map u32) k hk2]
  rw [hfirst]
  have hbody : (fun h2 => (List.range j2).foldlM
        (fun hh k => _blockU ((((X ++ Y).map u32).drop (16 * (j1 + k))).take 16) hh) h2) =
      fun h2 => updateBlocks (((X ++ Y).drop (16 * j1)).map u32) j2 h2 := by
    funext h2
    unfold updateBlocks
    refine foldlM_congr_mem (List.range j2) (fun b k _ => ?_) h2
    have hdd : ((X ++ Y).map u32).drop (16 * (j1 + k)) =
        ((((X ++ Y).drop (16 * j1)).map u32).drop (16 * k)) := by
      rw [List.map_drop, List.drop_drop]
      congr 1
      ring
    rw [hdd]
  rw [hbody]

/-- The success equation of update, given the block fold's result. -/
lemma update_eq_ok {st : Engine} {data : List Nat} {h2 : List Nat}
    (hle : st.length + data.length ≤ 9007199254740991)
    (hb : updateBlocks ((st.buffer.map t01 ++ data.map t01).map u32)
        (jcount st.length (st.length + data.length)) st.h = Except.ok h2) :
    update st data = Except.ok
      ⟨h2, (st.buffer.map t01 ++ data.map t01).drop
          (16 * jcount st.length (st.length + data.length)),
        st.length + data.length⟩ := by
  unfold update
  dsimp only [BitArrayB.bitLength]
  rw [if_neg (by omega)]
  rw [hb]
  rfl

/-- Except.ok feeds its value straight to the continuation. -/
lemma ok_bind {α β : Type} (a : α) (f : α → Except String β) :
    (Except.ok a >>= f : Except String β) = f a := rfl

/-- The state invariant of every engine reachable from fresh: the buffer is a
truthiness image (fixed by the o ? 1 : 0 collapse), the buffer holds the
running total's entries minus the 16 words each processed block consumed,
and the running total is within the accepted bound. -/
def Inv (st : Engine) : Prop :=
  st.buffer.map t01 = st.buffer ∧
  st.buffer.length + 16 * (st.length / 512) = st.length ∧
  st.length ≤ 9007199254740991

lemma inv_fresh : Inv fresh := ⟨rfl, rfl, Nat.zero_le _⟩

/-- update with no data leaves the engine unchanged. -/
lemma update_nil (st : Engine) (hinv : Inv st) : update st [] = Except.ok st := by
  obtain ⟨hbuf, hblen, hM⟩ := hinv
  have hj : jcount st.length (st.length + List.length ([] : List Nat)) = 0 := by
    rw [jcount_eq _ _ (by simp)]
    simp
  have hb : updateBlocks ((st.buffer.map t01 ++ ([] : List Nat).map t01).map u32)
      (jcount st.length (st.length + List.length ([] : List Nat))) st.h = Except.ok st.h := by
    rw [hj]
    rfl
  have hu := update_eq_ok (show st.length + List.length ([] : List Nat) ≤ 9007199254740991 by
    simpa using hM) hb
  rw [hu]
  congr 1
  cases st with
  | mk h buf len =>
    simp only at hj hbuf ⊢
    rw [hj]
    simp [hbuf]

/-- update preserves the invariant whenever it succeeds. -/
lemma update_inv {st : Engine} {data : List Nat} {s1 : Engine} (hinv : Inv st)
    (h : update st data = Except.ok s1) : Inv s1 := by
  obtain ⟨hbuf, hblen, hM⟩ := hinv
  by_cases hle : 9007199254740991 < st.length + data.length
  · rw [update_err hle] at h
    exact Except.noConfusion h
  · push_neg at hle
    obtain ⟨h2, hb⟩ := updateBlocks_ok ((st.buffer.map t01 ++ data.map t01).map u32)
      (jcount st.length (st.length + data.length)) st.h
    rw [@update_eq_ok st data h2 hle hb] at h
    have hs : s1 = ⟨h2, (st.buffer.map t01 ++ data.map t01).drop
        (16 * jcount st.length (st.length + data.length)), st.length + data.length⟩ := by
      injection h with h1
      exact h1.symm
    subst hs
    refine ⟨?_, ?_, hle⟩
    · rw [List.map_drop]
      congr 1
      rw [List.map_append, map_t01_idem, map_t01_idem]
    · simp only [List.length_drop, List.length_append, List.length_map]
      rw [jcount_eq _ _ (by omega)]
      omega

/-- Feeding d1 ++ d2 in one update call equals feeding d1 then d2: the
buffers append, the totals add, and the blocks processed along the way are
the same 16-word chunks of the same stream in the same order (including the
error case: the overflow throw fires on the same cumulative totals). -/
lemma update_append (st : Engine) (d1 d2 : List Nat) (hinv : Inv st) :
    update st (d1 ++ d2) = update st d1 >>= fun s1 => update s1 d2 := by
  obtain ⟨hbuf, hblen, hM⟩ := hinv
  by_cases hm1 : 9007199254740991 < st.length + d1.length
  · rw [@update_err st (d1 ++ d2) (by simp only [List.length_append]; omega),
      @update_err st d1 hm1]
    rfl
  · push_neg at hm1
    obtain ⟨h2, hb1⟩ := updateBlocks_ok ((st.buffer.map t01 ++ d1.map t01).map u32)
      (jcount st.length (st.length + d1.length)) st.h
    rw [@update_eq_ok st d1 h2 hm1 hb1, ok_bind]
    by_cases hnl : 9007199254740991 < st.length + (d1 ++ d2).length
    · rw [@update_err st (d1 ++ d2) hnl]
      simp only [List.length_append] at hnl
      have hnl2 : (9007199254740991 : Nat) < st.length + d1.length + d2.length := by omega
      exact (@update_err
        ⟨h2, (st.buffer.map t01 ++ d1.map t01).drop
          (16 * jcount st.length (st.length + d1.length)), st.length + d1.length⟩
        d2 hnl2).symm
    · push_neg at hnl
      simp only [List.length_append] at hnl
      have hlen1 : 16 * jcount st.length (st.length + d1.length) ≤
          (st.buffer.map t01 ++ d1.map t01).length := by
        rw [jcount_eq _ _ (by omega)]
        simp only [List.length_append, List.length_map]
        omega
      obtain ⟨H, hbL⟩ := updateBlocks_ok ((st.buffer.map t01 ++ (d1 ++ d2).map t01).map u32)
        (jcount st.length (st.length + (d1 ++ d2).length)) st.h
      rw [@update_eq_ok st (d1 ++ d2) H (by simp only [List.length_append]; omega) hbL]
      have hBsplit : st.buffer.map t01 ++ (d1 ++ d2).map t01 =
          (st.buffer.map t01 ++ d1.map t01) ++ d2.map t01 := by
        rw [List.map_append, List.append_assoc]
      have hj : jcount st.length (st.length + (d1 ++ d2).length) =
          jcount st.length (st.length + d1.length) +
            jcount (st.length + d1.length) (st.length + d1.length + d2.length) := by
        rw [jcount_eq _ _ (by simp only [List.length_append]; omega),
          jcount_eq _ _ (by omega), jcount_eq _ _ (by omega)]
        simp only [List.length_append]
        omega
      rw [hBsplit, hj, updateBlocks_split _ _ _ _ _ hlen1, hb1, ok_bind] at hbL
      have hbuf1 : ((st.buffer.map t01 ++ d1.map t01).drop
          (16 * jcount st.length (st.length + d1.length))).map t01 =
          (st.buffer.map t01 ++ d1.map t01).drop
            (16 * jcount st.length (st.length + d1.length)) := by
        rw [List.map_drop]
        congr 1
        rw [List.map_append, map_t01_idem, map_t01_idem]
      have hb2 : updateBlocks ((((st.buffer.map t01 ++ d1.map t01).drop
            (16 * jcount st.length (st.length + d1.length))).map t01 ++ d2.map t01).map u32)
          (jcount (st.length + d1.length) (st.length + d1.length + d2.length)) h2 =
          Except.ok H := by
        rw [hbuf1, ← List.drop_append_of_le_length hlen1]
        exact hbL
      rw [@update_eq_ok
        ⟨h2, (st.buffer.map t01 ++ d1.map t01).drop
          (16 * jcount st.length (st.length + d1.length)), st.length + d1.length⟩
        d2 H (by dsimp only; omega) hb2]
      dsimp only
      simp only [Except.ok.injEq, Engine.mk.injEq, true_and]
      refine ⟨?_, by simp only [List.length_append]; omega⟩
      rw [hbuf1, ← List.drop_append_of_le_length hlen1, List.drop_drop, hBsplit, hj]
      congr 1
      ring

/-- Folding update over a list of pieces from an invariant state equals one
update on the concatenation of the pieces. -/
lemma updates_flatten : ∀ (ds : List (List Nat)) (st : Engine), Inv st →
    List.foldlM update st ds = update st ds.flatten := by
  intro ds
  induction ds with
  | nil =>
    intro st hinv
    simp only [List.foldlM_nil, List.flatten_nil]
    exact (update_nil st hinv).symm
  | cons d ds ih =>
    intro st hinv
    rw [List.flatten_cons, update_append st d ds.flatten hinv, List.foldlM_cons]
    cases hud : update st d with
    | error e => rfl
    | ok s1 =>
      rw [ok_bind, ok_bind]
      exact ih s1 (update_inv hinv hud)

end SHA1

/-- C2.  Chunking invariance: feeding the pieces of any split one by one to a
fresh engine through update and then calling finalize equals the one-shot
hash of the whole input, including the failure case (both sides throw the
same Invalid on overflow). -/
theorem C2_chunking_invariance (pieces : List (List Bool)) :
    (List.foldlM (fun st p => SHA1.update st (p.map SHA1.b01)) SHA1.fresh pieces) >>=
      SHA1.finalize = SHA1.hashBits pieces.flatten := by
  have h1 : List.foldlM (fun st p => SHA1.update st (p.map SHA1.b01)) SHA1.fresh pieces
      = List.foldlM SHA1.update SHA1.fresh (pieces.map (fun p => p.map SHA1.b01)) := by
    rw [List.foldlM_map]
  rw [h1, SHA1.updates_flatten _ _ SHA1.inv_fresh]
  unfold SHA1.hashBits
  have h2 : (pieces.map (fun p => p.map SHA1.b01)).flatten = pieces.flatten.map SHA1.b01 :=
    (List.map_flatten _ _).symm
  rw [h2]

/-- C6.  update throws Invalid exactly when the running total plus the new
data's bitLength (its array length, the engine's unit of length) passes
2^53 - 1; below the bound every input is accepted: update returns the engine
(no other throw exists on the path, the compression rounds always
succeeding). -/
theorem C6_update_overflow_only :
    (∀ (st : SHA1.Engine) (data : List Nat),
      9007199254740991 < st.length + BitArrayB.bitLength data →
        SHA1.update st data = Except.error "Cannot hash more than 2^53 - 1 bits") ∧
    (∀ (st : SHA1.Engine) (data : List Nat),
      st.length + BitArrayB.bitLength data ≤ 9007199254740991 →
        ∃ st2, SHA1.update st data = Except.ok st2) := by
  constructor
  · intro st data h
    exact SHA1.update_err h
  · intro st data h
    obtain ⟨h2, hb⟩ := SHA1.updateBlocks_ok
      ((st.buffer.map SHA1.t01 ++ data.map SHA1.t01).map u32)
      (SHA1.jcount st.length (st.length + data.length)) st.h
    exact ⟨_, SHA1.update_eq_ok h hb⟩

/-- Witness for C6: one overflowing update and one accepted update. -/
theorem C6_update_overflow_only_witness :
    SHA1.update ⟨SHA1._init, [], 9007199254740991⟩ [1] =
      Except.error "Cannot hash more than 2^53 - 1 bits" ∧
    ∃ st2, SHA1.update SHA1.fresh [1] = Except.ok st2 :=
  ⟨C6_update_overflow_only.1 ⟨SHA1._init, [], 9007199254740991⟩ [1]
      (by norm_num [BitArrayB.bitLength]),
   C6_update_overflow_only.2 SHA1.fresh [1] (by norm_num [BitArrayB.bitLength, SHA1.fresh])⟩

/-- Witness for C7 at concrete round indices in each range. -/
theorem C7_round_function_ranges_witness :
    SHA1._f 7 1 2 4 = Except.ok (or32 (and32 1 2) (and32 (not32 1) 4)) ∧
    SHA1._f 25 1 2 4 = Except.ok (xor32 (xor32 1 2) 4) ∧
    SHA1._f 45 1 2 4 = Except.ok (or32 (or32 (and32 1 2) (and32 1 4)) (and32 2 4)) ∧
    SHA1._f 70 1 2 4 = Except.ok (xor32 (xor32 1 2) 4) := by
  refine ⟨?_, ?_, ?_, ?_⟩
  · have h := C7_round_function_ranges.1 7 1 2 4 (by norm_num)
    simpa using h
  · have h := C7_round_function_ranges.1 25 1 2 4 (by norm_num)
    simpa using h
  · have h := C7_round_function_ranges.1 45 1 2 4 (by norm_num)
    simpa using h
  · have h := C7_round_function_ranges.1 70 1 2 4 (by norm_num)
    simpa using h

set_option maxRecDepth 40000 in
/-- C1 (the code diverges).  Hashing the empty string: the compression of the
single padding block leaves the internal digest words at exactly 0xda39a3ee
0x5e6b4b0d 0x3255bfef 0x95601890 0xafd80709 -- the value whose hex rendering
is da39a3ee5e6b4b0d3255bfef95601890afd80709 -- but finalize's last line maps
each word through o => !!o, so the value hash("") actually returns is the
five-boolean array [true, true, true, true, true], not the 160-bit digest its
own doc comment promises. -/
theorem C1_hash_empty_eval :
    (SHA1.update SHA1.fresh (CodecString.toBits []) >>= SHA1.finalizeWords) =
      Except.ok [0xda39a3ee, 0x5e6b4b0d, 0x3255bfef, 0x95601890, 0xafd80709] ∧
    SHA1.hashStr [] = Except.ok [true, true, true, true, true] := ⟨rfl, rfl⟩

/-- C8 (the code diverges).  The UTF-8 conversion of "f" (byte 0x66) stores
one word 0x66000000 whose 8-bit partial tag the Uint32Array strips, and the
base32 encoder reads bitLength through the boolean-variant bitArray import,
the array length 1; the encoder loop therefore emits ceil(1/5) = 1 data
character and pads to 8, yielding "M=======", not the RFC 4648 "MY======". -/
theorem C8_base32_single_byte_eval :
    CodecString.toBits [0x66] = [0x66000000] ∧
    BitArrayB.bitLength (CodecString.toBits [0x66]) = 1 ∧
    CodecBase32.fromBits (CodecString.toBits [0x66]) false false = "M=======" :=
  ⟨rfl, rfl, rfl⟩
